import Mathlib

/-
Verification development for the ResumeMindAI-Cli knowledge-graph core.

Python strings are modelled as `List Char` (Python indexes strings by code
point, which matches `List Char` positions).  Machine floats are modelled by
exact arithmetic: `ℚ` for the vector components the services shuffle around,
and `ℝ` where the code takes square roots (`math.sqrt`).  Provider calls
(LiteLLM embeddings, the agno extraction teams) are modelled as oracles
returning `Option _`, where `none` stands for the call raising an exception.
-/

namespace ResumeMind

/-! ### Python string primitives -/

/-- The characters stripped by Python `str.strip()` (ASCII whitespace; the
resume pipeline only ever feeds ASCII whitespace to `strip`). -/
def isPySpace (c : Char) : Bool :=
  c = ' ' ∨ c = '\t' ∨ c = '\n' ∨ c = '\r' ∨ c = '\x0b' ∨ c = '\x0c'

/-- Python `s.strip()`. -/
def pyStrip (s : List Char) : List Char :=
  ((s.dropWhile isPySpace).reverse.dropWhile isPySpace).reverse

/-- Python `s.split("\n")`: splits at every newline, keeping empty pieces;
`"".split("\n") == [""]`. -/
def splitOnNewline : List Char → List (List Char)
  | [] => [[]]
  | c :: rest =>
    let r := splitOnNewline rest
    if c = '\n' then [] :: r
    else
      match r with
      | h :: t => (c :: h) :: t
      | [] => [[c]]

/-- Python `"\n".join(pieces)`. -/
def joinNewline (pieces : List (List Char)) : List Char :=
  (pieces.intersperse ['\n']).flatten

/-- Python `s.replace(old, new)` for a single-character `old`. -/
def replaceChar (s : List Char) (old : Char) (new : List Char) : List Char :=
  s.foldr (fun c acc => if c = old then new ++ acc else c :: acc) []

/-- Python `s.lower()` on the ASCII letters the heading patterns use. -/
def lowerList (s : List Char) : List Char :=
  s.map Char.toLower

/-! ### SectionSegmenter — `ResumeGraphExtractionWorkflow._parse_resume_sections` -/

/-- The `section_patterns` table: each regex
`(?i)^#+\s*(alt1|alt2|…)` is recorded as its list of alternative keywords
(lowercased; a trailing `s?` or a shortened stem in the regex is the same as
prefix-matching the stem, since the patterns are unanchored at the right),
paired with the section type it maps to.  Order matters: `re.match` is tried
in dict insertion order and the first hit wins. -/
def section_heading_table : List (List (List Char) × String) :=
  [ (["education".toList, "academic".toList, "qualification".toList], "education")
  , (["experience".toList, "employment".toList, "work".toList, "career".toList], "experience")
  , (["skill".toList, "technical".toList, "competenc".toList], "skills")
  , (["project".toList, "portfolio".toList], "projects")
  , (["publication".toList, "research".toList, "paper".toList], "publications")
  , (["contact".toList, "personal".toList, "info".toList], "contact")
  , (["summary".toList, "objective".toList, "profile".toList], "summary")
  , (["award".toList, "honor".toList, "achievement".toList], "awards")
  , (["volunteer".toList, "community".toList, "service".toList], "volunteer")
  , (["certification".toList, "license".toList], "certifications") ]

/-- `re.match(r"(?i)^#+\s*(…)", line.strip())`: after stripping the line, it
must start with one or more `#`, then optional whitespace, then (case
insensitively) one of the pattern's keywords as a prefix.  Returns the section
type of the first matching pattern, as in the `for pattern, stype` loop. -/
def matchHeading (line : List Char) : Option String :=
  let s := pyStrip line
  match s with
  | [] => none
  | c :: _ =>
    if c = '#' then
      let rest := (s.dropWhile (· = '#')).dropWhile isPySpace
      ((section_heading_table.find?
          (fun p => p.1.any (fun kw => kw.isPrefixOf (lowerList rest)))).map (·.2))
    else none

/-- One in-progress section of the scan: its type, its title (`line.strip()`
of the heading line, or `"Header Information"`), and the raw lines collected
so far (`current_content`). -/
structure SectionGroup where
  section_type : String
  title : List Char
  rawLines : List (List Char)
deriving Repr, DecidableEq

/-- The scan loop of `_parse_resume_sections`, kept at the granularity of raw
line groups (the `current_content` lists).  `cur` is the
`current_section`/`current_title`/`current_content` state (`none` before any
line was seen).  On a heading line the previous group is emitted (the code
guards on `current_section and current_content`; the content list is nonempty
whenever a section is open, but the guard is kept faithfully), on other lines
the line is appended to the open group, opening the synthetic `header` group
if none is open.  At end of input the last group is emitted under the same
guard. -/
def segGo (cur : Option SectionGroup) : List (List Char) → List SectionGroup
  | [] =>
    match cur with
    | none => []
    | some g => if g.rawLines ≠ [] then [g] else []
  | line :: rest =>
    match matchHeading line with
    | some stype =>
      let emitted :=
        match cur with
        | none => []
        | some g => if g.rawLines ≠ [] then [g] else []
      emitted ++ segGo (some ⟨stype, pyStrip line, [line]⟩) rest
    | none =>
      match cur with
      | some g => segGo (some ⟨g.section_type, g.title, g.rawLines ++ [line]⟩) rest
      | none => segGo (some ⟨"header", "Header Information".toList, [line]⟩) rest

/-- The raw line groups produced by scanning the split lines. -/
def segmentGroups (lines : List (List Char)) : List SectionGroup :=
  segGo none lines

/-- A returned section: `{"section_type": …, "title": …, "content": …}` where
`content` is `"\n".join(current_content).strip()`. -/
structure PySection where
  section_type : String
  title : List Char
  content : List Char
deriving Repr, DecidableEq

/-- Closing a group: the dict appended to `sections`. -/
def closeGroup (g : SectionGroup) : PySection :=
  ⟨g.section_type, g.title, pyStrip (joinNewline g.rawLines)⟩

/-- `ResumeGraphExtractionWorkflow._parse_resume_sections`. -/
def parse_resume_sections (formatted_resume : List Char) : List PySection :=
  (segmentGroups (splitOnNewline formatted_resume)).map closeGroup

/-! ### EmbeddingPipeline — `EmbeddingService` -/

/-- `get_embedding_token_limits()`. -/
def embedding_token_limits : List (String × Nat) :=
  [ ("text-embedding-3-small", 8191)
  , ("text-embedding-3-large", 8191)
  , ("text-embedding-ada-002", 8191)
  , ("text-embedding-004", 8000)
  , ("text-embedding-gecko-001", 8000)
  , ("ollama/nomic-embed-text", 8192)
  , ("ollama/mxbai-embed-large", 8192)
  , ("ollama/all-minilm", 8192)
  , ("default", 7000) ]

/-- `token_limits.get(model, token_limits["default"])` in `__init__`:
the service's `self.max_tokens`. -/
def token_limit_for (model : String) : Nat :=
  ((embedding_token_limits.find? (fun p => p.1 = model)).map (·.2)).getD 7000

/-- `int(self.max_tokens * 0.8)` — 80 % of the model's token budget.  For
every limit in the table (and any realistic one) the float product
`n * 0.8` floors to `n * 8 / 10` in integer arithmetic. -/
def safe_tokens (max_tokens : Nat) : Nat :=
  max_tokens * 8 / 10

/-- Python `text.rfind(delim, a, b)`: the largest position `p` with
`a ≤ p`, `p + len(delim) ≤ b` and `text[p : p+len(delim)] == delim`;
`none` models the `-1` result. -/
def pyRfind (text delim : List Char) (a b : Nat) : Option Nat :=
  ((List.range (b + 1)).filter
    (fun p => a ≤ p ∧ p + delim.length ≤ b ∧ (text.drop p).take delim.length = delim)).getLast?

/-- The sentence delimiters tried by `_chunk_text`, in loop order. -/
def sentence_delimiters : List (List Char) :=
  [['.', ' '], ['.', '\n'], ['!', ' '], ['!', '\n'], ['?', ' '], ['?', '\n']]

/-- The `sentence_end` scan: start from `-1`; for each delimiter, if
`rfind`'s position is greater than the current value, replace it by
`pos + len(delimiter)`.  (The code compares the *position* against the
previously stored *end*, exactly as here.) -/
def findSentenceEnd (text : List Char) (a b : Nat) : Int :=
  sentence_delimiters.foldl
    (fun se d =>
      match pyRfind text d a b with
      | some pos => if (pos : Int) > se then (pos : Int) + d.length else se
      | none => se)
    (-1)

/-- The cut position `end` chosen for the chunk starting at `start`:
`start + max_chars`, moved back to the best sentence boundary found in the
last 500 characters when the hard cutoff is not already past the end of the
text. -/
def chunkEnd (text : List Char) (maxChars start : Nat) : Nat :=
  if start + maxChars < text.length then
    if findSentenceEnd text (max start (start + maxChars - 500)) (start + maxChars)
        > (start : Int) then
      (findSentenceEnd text (max start (start + maxChars - 500)) (start + maxChars)).toNat
    else start + maxChars
  else start + maxChars

/-- The `while start < len(text)` loop of `_chunk_text`, with explicit fuel
(the Python loop terminates whenever `max_chars ≥ 1`; the fuel is a bound on
the number of iterations).  Each round slices `text[start:end]`, strips it,
and keeps it when nonempty. -/
def chunkLoop (text : List Char) (maxChars : Nat) : Nat → Nat → List (List Char)
  | 0, _ => []
  | fuel + 1, start =>
    if start < text.length then
      let e := chunkEnd text maxChars start
      let chunk := pyStrip ((text.drop start).take (e - start))
      let rest := chunkLoop text maxChars fuel e
      if chunk = [] then rest else chunk :: rest
    else []

/-- The same loop keeping the raw (unstripped, unfiltered) slices
`text[start:end]`.  `chunkLoop` is the pointwise `strip` of these slices with
empty results dropped. -/
def sliceLoop (text : List Char) (maxChars : Nat) : Nat → Nat → List (List Char)
  | 0, _ => []
  | fuel + 1, start =>
    if start < text.length then
      let e := chunkEnd text maxChars start
      (text.drop start).take (e - start) :: sliceLoop text maxChars fuel e
    else []

/-- `EmbeddingService._chunk_text(text, max_tokens)` (with `max_tokens`
given explicitly; the default is `safe_tokens self.max_tokens`):
`max_chars = max_tokens * 4`; short texts are returned unchanged as a
singleton, long ones go through the chunking loop. -/
def chunk_text (text : List Char) (max_tokens : Nat) : List (List Char) :=
  let maxChars := max_tokens * 4
  if text.length ≤ maxChars then [text]
  else chunkLoop text maxChars (text.length + 1) 0

/-- The raw slices underlying `chunk_text` on the long-text path. -/
def chunk_slices (text : List Char) (max_tokens : Nat) : List (List Char) :=
  let maxChars := max_tokens * 4
  if text.length ≤ maxChars then [text]
  else sliceLoop text maxChars (text.length + 1) 0

/-- The embedding provider as seen through `litellm.aembedding`: a single-text
call and a batched call.  `none` models the call raising an exception. -/
structure EmbeddingProvider where
  single : List Char → Option (List ℚ)
  batch : List (List Char) → Option (List (List ℚ))

/-- The averaging block of `generate_embedding`: `embedding_dim` is the length
of the first chunk embedding; each dimension is averaged over all successful
chunk embeddings.  If some embedding is shorter than the first, Python raises
`IndexError` at `emb[dim]`, which the enclosing `except` turns into `[]`;
the `else` branch models that. -/
def pyAverage (embs : List (List ℚ)) : List ℚ :=
  match embs with
  | [] => []
  | e0 :: _ =>
    if embs.all (fun e => e0.length ≤ e.length) then
      (List.range e0.length).map
        (fun dim => ((embs.map (fun e => e.getD dim 0)).sum) / (embs.length : ℚ))
    else []

/-- `EmbeddingService.generate_embedding(text)` for a service whose model has
token limit `model_max_tokens`.  A single chunk is embedded directly (the
original `text` is passed to the provider); several chunks are embedded one
by one, failed chunks skipped (`except … continue`), and the survivors
averaged; zero survivors give `[]`; any exception (including a provider
failure on the single-chunk path) gives `[]`. -/
def generate_embedding (p : EmbeddingProvider) (model_max_tokens : Nat)
    (text : List Char) : List ℚ :=
  let chunks := chunk_text text (safe_tokens model_max_tokens)
  if chunks.length = 1 then (p.single text).getD []
  else
    let chunk_embeddings := chunks.filterMap p.single
    if chunk_embeddings = [] then [] else pyAverage chunk_embeddings

/-- `EmbeddingService.generate_embeddings_batch(texts)`:
`needs_chunking = any(len(text) > 28000 for text in texts)` (a hardcoded
`~7k tokens` threshold); if no text trips it, one batched provider call is
made (whose failure falls back to per-text processing); otherwise every text
is processed individually through `generate_embedding`. -/
def generate_embeddings_batch (p : EmbeddingProvider) (model_max_tokens : Nat)
    (texts : List (List Char)) : List (List ℚ) :=
  if texts.any (fun text => text.length > 28000) then
    texts.map (generate_embedding p model_max_tokens)
  else
    match p.batch texts with
    | some embs => embs
    | none => texts.map (generate_embedding p model_max_tokens)

/-- The chunking criterion of `_chunk_text`/`generate_embedding` for a model
with token limit `model_max_tokens`: the text is split (into more than one
piece) exactly when it exceeds the safe character budget. -/
def requires_chunking (model_max_tokens : Nat) (text : List Char) : Bool :=
  text.length > safe_tokens model_max_tokens * 4

/-! ### Cosine similarity — `GraphDatabaseService._cosine_similarity` and
`EmbeddingService._cosine_similarity` -/

/-- `sum(a * b for a, b in zip(vec1, vec2))` — `zip` truncates to the shorter
vector. -/
def dotZip (v w : List ℚ) : ℚ :=
  ((v.zip w).map (fun p => p.1 * p.2)).sum

/-- `sum(a * a for a in vec)`. -/
def sumSq (v : List ℚ) : ℚ :=
  (v.map (fun a => a * a)).sum

/-- `GraphDatabaseService._cosine_similarity(vec1, vec2)`: returns `0.0` when
either vector is empty or the lengths differ; otherwise
`dot / (magnitude1 * magnitude2)` with `magnitude = sqrt(Σ a²)`, and `0.0`
when either magnitude is zero. -/
noncomputable def cosine_similarity_gdb (v w : List ℚ) : ℝ :=
  if v = [] ∨ w = [] ∨ v.length ≠ w.length then 0
  else if Real.sqrt ((sumSq v : ℚ) : ℝ) = 0 ∨ Real.sqrt ((sumSq w : ℚ) : ℝ) = 0 then 0
  else ((dotZip v w : ℚ) : ℝ)
    / (Real.sqrt ((sumSq v : ℚ) : ℝ) * Real.sqrt ((sumSq w : ℚ) : ℝ))

/-- `EmbeddingService._cosine_similarity(vec1, vec2)`: identical arithmetic
but with **no** emptiness or length guard — `zip` silently truncates the dot
product to the common prefix while the magnitudes still range over the full
vectors. -/
noncomputable def cosine_similarity_es (v w : List ℚ) : ℝ :=
  if Real.sqrt ((sumSq v : ℚ) : ℝ) = 0 ∨ Real.sqrt ((sumSq w : ℚ) : ℝ) = 0 then 0
  else ((dotZip v w : ℚ) : ℝ)
    / (Real.sqrt ((sumSq v : ℚ) : ℝ) * Real.sqrt ((sumSq w : ℚ) : ℝ))

/-! ### GraphStore — `GraphDatabaseService.store_resume_graph` query
construction -/

/-- A single quote character (Python `'`). -/
def sq : Char := '\''

/-- `s.replace("'", "\\'").replace('"', '\\"')` — the only escaping applied
to names, types, descriptions and (crucially) the predicate. -/
def escape_quotes (s : List Char) : List Char :=
  replaceChar (replaceChar s sq ['\\', sq]) '"' ['\\', '"']

/-- `f"`{t.replace('`', '``')}`"` — the backtick escaping applied to entity
types when they are used as node labels. -/
def escape_label (s : List Char) : List Char :=
  ['`'] ++ replaceChar s '`' ['`', '`'] ++ ['`']

/-- A Cypher-identifier-safe string: nonempty and made of ASCII letters,
digits and underscores only (what FalkorDB accepts as an unquoted
relationship type or label, so that the token cannot close the identifier
position and continue the query). -/
def identifier_safe (s : List Char) : Bool :=
  s ≠ [] ∧ s.all (fun c => c.isAlphanum ∨ c = '_')

/-- One extracted triplet (`GraphTriplet`): eight free-text fields. -/
structure GraphTriplet where
  subject : List Char
  predicate : List Char
  object : List Char
  subject_type : List Char
  object_type : List Char
  subject_description : List Char
  object_description : List Char
  relationship_description : List Char
deriving Repr, DecidableEq

/-- The relationship `MERGE` query built for one triplet in
`store_resume_graph` (whitespace of the f-string template elided): the
quote-escaped subject/object/description and `resume_id` land inside single
quotes, the backtick-escaped types are the node labels, and the quote-escaped
predicate is spliced **bare** into the relationship-type position after
`[r:`. -/
def relationship_query (resume_id : List Char) (t : GraphTriplet) : List Char :=
  "MATCH (s:".toList ++ escape_label t.subject_type
    ++ " \x7bname: ".toList ++ [sq] ++ escape_quotes t.subject ++ [sq]
    ++ ", resume_id: ".toList ++ [sq] ++ resume_id ++ [sq] ++ "\x7d) ".toList
  ++ "MATCH (o:".toList ++ escape_label t.object_type
    ++ " \x7bname: ".toList ++ [sq] ++ escape_quotes t.object ++ [sq]
    ++ ", resume_id: ".toList ++ [sq] ++ resume_id ++ [sq] ++ "\x7d) ".toList
  ++ "MERGE (s)-[r:".toList ++ escape_quotes t.predicate
    ++ " \x7b resume_id: ".toList ++ [sq] ++ resume_id ++ [sq]
    ++ ", description: ".toList ++ [sq] ++ escape_quotes t.relationship_description ++ [sq]
    ++ ", embedding: null \x7d]->(o)".toList

/-! ### ReviewWorkflow — `CLIInterface.review_extracted_triplets` and
`CLIInterface._handle_remove_triplets` -/

/-- `f"{triplet.subject}|{triplet.predicate}|{triplet.object}"`. -/
def signature (t : GraphTriplet) : List Char :=
  t.subject ++ ['|'] ++ t.predicate ++ ['|'] ++ t.object

/-- The dedup pass over `additional_triplets`: walk the candidates in order,
appending a candidate to `unique_additional` (and its signature to
`existing_signatures`) exactly when its signature is not yet in the set. -/
def uniqueAdditional (existing_signatures : List (List Char)) :
    List GraphTriplet → List GraphTriplet
  | [] => []
  | t :: rest =>
    if signature t ∈ existing_signatures then uniqueAdditional existing_signatures rest
    else t :: uniqueAdditional (signature t :: existing_signatures) rest

/-- The merge performed on a successful requery:
`graph_data.triplets.extend(unique_additional)` where `unique_additional` is
deduplicated against the signatures of all current triplets. -/
def review_merge (triplets candidates : List GraphTriplet) : List GraphTriplet :=
  triplets ++ uniqueAdditional (triplets.map signature) candidates

/-- Python `x.isdigit()` for the ASCII input of the removal prompt. -/
def isDigits (s : List Char) : Bool :=
  s ≠ [] ∧ s.all (fun c => c.isDigit)

/-- `int(s)` for a digits-only string. -/
def digitsToNat (s : List Char) : Nat :=
  s.foldl (fun n c => n * 10 + (c.toNat - '0'.toNat)) 0

/-- Python `s.split(",")`. -/
def splitOnComma : List Char → List (List Char)
  | [] => [[]]
  | c :: rest =>
    let r := splitOnComma rest
    if c = ',' then [] :: r
    else
      match r with
      | h :: t => (c :: h) :: t
      | [] => [[c]]

/-- `[int(x.strip()) - 1 for x in remove_input.split(",") if x.strip().isdigit()]`:
the 0-based indices parsed from the prompt (as `Int`, since `"0"` yields
`-1`). -/
def parse_remove_indices (remove_input : List Char) : List Int :=
  (splitOnComma remove_input).filterMap
    (fun x =>
      let t := pyStrip x
      if isDigits t then some ((digitsToNat t : Int) - 1) else none)

/-- The removal core of `_handle_remove_triplets` given already-parsed 0-based
indices: keep the in-range ones, sort them descending
(`sorted(indices_to_remove, reverse=True)`), and `pop` each in turn. -/
def removeTriplets (triplets : List GraphTriplet) (indices : List Int) : List GraphTriplet :=
  let indices_to_remove :=
    (indices.filter (fun i => 0 ≤ i ∧ i < (triplets.length : Int))).map Int.toNat
  let sorted := List.insertionSort (· ≥ ·) indices_to_remove
  sorted.foldl List.eraseIdx triplets

/-- `CLIInterface._handle_remove_triplets` acting on the triplet list: parse
the comma-separated 1-based numbers and remove them (an empty or fully
invalid input leaves the list unchanged — the code only pops when
`indices_to_remove` is nonempty, and popping nothing is the same). -/
def handle_remove_triplets (triplets : List GraphTriplet) (remove_input : List Char) :
    List GraphTriplet :=
  removeTriplets triplets (parse_remove_indices remove_input)

/-- The mutable state a review session owns: the triplet list and the pending
additional-extraction requests of the `ResumeGraphExtractionOutput`. -/
structure ReviewState where
  triplets : List GraphTriplet
  additional_extraction_requests : List (List Char)
deriving Repr, DecidableEq

/-- Outcome of the `extract_additional_triplets` call: the returned list, or
`failure` when the call raises. -/
inductive ExtractionOutcome where
  | success (triplets : List GraphTriplet)
  | failure
deriving Repr, DecidableEq

/-- One pass through the `while True` menu of `review_extracted_triplets`:
the user's choice, with the data it consumes.  `approve` carries the oracle
outcome of the requery that option 1 may trigger; `cancel` carries the
confirmation answer. -/
inductive ReviewAction where
  | approve (outcome : ExtractionOutcome)
  | addRequest (info : List Char)
  | removeAction (remove_input : List Char)
  | viewDetails
  | cancel (confirmed : Bool)

/-- The option-1 branch.  When requests are pending *and* both
`formatted_resume` and `graph_extractor` were supplied, the requery runs:
on success with a nonempty result the unique new triplets are appended, the
queue is cleared and the loop continues (`continue`); on an empty result or
an exception the queue is cleared and, the queue now being empty, the final
`if not graph_data.additional_extraction_requests: return True` approves.
Without pending requests the same check approves immediately; with pending
requests but a missing resume/extractor nothing happens and the loop
continues.  The second component is `some true` for approval, `none` for
"stay in the loop". -/
def approveStep (hasResume hasExtractor : Bool) (outcome : ExtractionOutcome)
    (st : ReviewState) : ReviewState × Option Bool :=
  if st.additional_extraction_requests ≠ [] ∧ hasResume ∧ hasExtractor then
    match outcome with
    | .success ts =>
      if ts ≠ [] then ({ triplets := review_merge st.triplets ts,
                         additional_extraction_requests := [] }, none)
      else ({ st with additional_extraction_requests := [] }, some true)
    | .failure => ({ st with additional_extraction_requests := [] }, some true)
  else
    if st.additional_extraction_requests = [] then (st, some true) else (st, none)

/-- One iteration of the review menu.  Result `some true` = `return True`
(approved), `some false` = `return False` (cancelled), `none` = loop again.
Option 2 appends the request only when the stripped input is nonempty;
option 4 only displays; option 5 cancels only on confirmation. -/
def reviewStep (hasResume hasExtractor : Bool) (st : ReviewState) :
    ReviewAction → ReviewState × Option Bool
  | .approve outcome => approveStep hasResume hasExtractor outcome st
  | .addRequest info =>
    if pyStrip info ≠ [] then
      ({ st with additional_extraction_requests :=
          st.additional_extraction_requests ++ [info] }, none)
    else (st, none)
  | .removeAction remove_input =>
    ({ st with triplets := handle_remove_triplets st.triplets remove_input }, none)
  | .viewDetails => (st, none)
  | .cancel confirmed => if confirmed then (st, some false) else (st, none)

/-! ### Theorems -/

/-- The raw lines held by the in-progress section state. -/
def pendingLines : Option SectionGroup → List (List Char)
  | none => []
  | some g => g.rawLines

theorem segGo_rawLines_flatten (lines : List (List Char)) :
    ∀ cur : Option SectionGroup,
      ((segGo cur lines).map (·.rawLines)).flatten = pendingLines cur ++ lines := by
  induction lines with
  | nil =>
    intro cur
    match cur with
    | none => simp [segGo, pendingLines]
    | some g =>
      by_cases h : g.rawLines = [] <;> simp [segGo, pendingLines, h]
  | cons line rest ih =>
    intro cur
    match hm : matchHeading line with
    | some stype =>
      match cur with
      | none => simp [segGo, hm, pendingLines, ih]
      | some g =>
        by_cases h : g.rawLines = [] <;>
          simp [segGo, hm, pendingLines, ih, h]
    | none =>
      match cur with
      | none => simp [segGo, hm, pendingLines, ih]
      | some g => simp [segGo, hm, pendingLines, ih]

theorem segmentGroups_flatten (lines : List (List Char)) :
    ((segmentGroups lines).map (·.rawLines)).flatten = lines := by
  simpa [segmentGroups, pendingLines] using segGo_rawLines_flatten lines none

set_option maxRecDepth 20000 in
/-- C1.  The claim that entity-type and predicate strings are sanitized by
`store_resume_graph` before interpolation, so that no user-influenced content
can alter the query structure and the predicate is identifier-safe after the
applied escaping, is false: the only escaping applied to the predicate is
quote escaping, which leaves a structure-altering predicate untouched and
not identifier-safe, and the generated relationship query then contains the
injected clause verbatim in the relationship-type position. -/
theorem c1_predicate_reaches_query_unsanitized :
    escape_quotes "KNOWS ]->(o) DETACH DELETE o //".toList
        = "KNOWS ]->(o) DETACH DELETE o //".toList
      ∧ identifier_safe (escape_quotes "KNOWS ]->(o) DETACH DELETE o //".toList) = false
      ∧ "]->(o) DETACH DELETE o //".toList
          <:+: relationship_query "r1".toList
            ⟨"John".toList, "KNOWS ]->(o) DETACH DELETE o //".toList, "Acme".toList,
             "Person".toList, "Company".toList, [], [], []⟩ := by
  decide

/-- C2, counterexample.  For the input `"a\n\n"` (lines `["a", "", ""]`) the
single returned section has content `"a"`, so the concatenation of the
sections' lines drops the two trailing empty lines of the input. -/
theorem c2_counterexample :
    ((parse_resume_sections "a\n\n".toList).map
        (fun s => splitOnNewline s.content)).flatten
      ≠ splitOnNewline "a\n\n".toList := by
  decide

/-- C2, amended.  The scan itself partitions the input lines exactly: the
raw line groups underlying the returned sections concatenate to the input's
lines, in order, with no line dropped or duplicated (content before the first
recognized heading forming a synthetic `header` group); but each returned
section's `content` is the group's lines joined and **stripped**, so blank
lines at a group's edges are missing from the reported content. -/
theorem c2_sections_partition_input_lines (text : List Char) :
    ((segmentGroups (splitOnNewline text)).map (·.rawLines)).flatten
        = splitOnNewline text
      ∧ parse_resume_sections text
        = (segmentGroups (splitOnNewline text)).map closeGroup := by
  exact ⟨segmentGroups_flatten (splitOnNewline text), rfl⟩

theorem pyRfind_bound {text delim : List Char} {a b p : Nat}
    (h : pyRfind text delim a b = some p) : p + delim.length ≤ b := by
  have hp : p ∈ (List.range (b + 1)).filter
      (fun p => a ≤ p ∧ p + delim.length ≤ b ∧ (text.drop p).take delim.length = delim) := by
    obtain ⟨hne, hx⟩ := List.mem_getLast?_eq_getLast (x := p) h
    exact hx ▸ List.getLast_mem hne
  have := (List.mem_filter.mp hp).2
  simp only [decide_eq_true_eq] at this
  exact this.2.1

theorem findSentenceEnd_foldl_le (text : List Char) (a b : Nat) :
    ∀ (ds : List (List Char)) (acc : Int), acc ≤ (b : Int) →
      ds.foldl (fun se d =>
        match pyRfind text d a b with
        | some pos => if (pos : Int) > se then (pos : Int) + d.length else se
        | none => se) acc ≤ (b : Int) := by
  intro ds
  induction ds with
  | nil => intro acc h; simpa using h
  | cons d ds ih =>
    intro acc h
    rw [List.foldl_cons]
    apply ih
    cases hr : pyRfind text d a b with
    | none => simpa [hr] using h
    | some pos =>
      have hb := pyRfind_bound hr
      simp only [hr]
      split
      · exact_mod_cast hb
      · exact h

theorem findSentenceEnd_le (text : List Char) (a b : Nat) :
    findSentenceEnd text a b ≤ (b : Int) := by
  unfold findSentenceEnd
  exact findSentenceEnd_foldl_le text a b sentence_delimiters (-1) (by omega)

theorem chunkEnd_le (text : List Char) (maxChars start : Nat) :
    chunkEnd text maxChars start ≤ start + maxChars := by
  unfold chunkEnd
  have hle := findSentenceEnd_le text (max start (start + maxChars - 500)) (start + maxChars)
  split
  · split
    · omega
    · omega
  · omega

theorem lt_chunkEnd (text : List Char) (maxChars start : Nat) (hm : 1 ≤ maxChars) :
    start < chunkEnd text maxChars start := by
  unfold chunkEnd
  split
  · split
    · next h => omega
    · omega
  · omega

theorem sliceLoop_flatten (text : List Char) (maxChars : Nat) (hm : 1 ≤ maxChars) :
    ∀ (fuel start : Nat), text.length ≤ start + fuel →
      (sliceLoop text maxChars fuel start).flatten = text.drop start := by
  intro fuel
  induction fuel with
  | zero =>
    intro start h
    simp only [sliceLoop, List.flatten_nil]
    exact (List.drop_eq_nil_of_le (by omega)).symm
  | succ fuel ih =>
    intro start h
    rw [sliceLoop]
    by_cases hs : start < text.length
    · rw [if_pos hs, List.flatten_cons]
      have hlt := lt_chunkEnd text maxChars start hm
      rw [ih (chunkEnd text maxChars start) (by omega)]
      have hds : text.drop (chunkEnd text maxChars start)
          = (text.drop start).drop (chunkEnd text maxChars start - start) := by
        rw [List.drop_drop]
        congr 1
        omega
      rw [hds, List.take_append_drop]
    · rw [if_neg hs, List.flatten_nil]
      exact (List.drop_eq_nil_of_le (by omega)).symm

theorem chunkLoop_eq_slices (text : List Char) (maxChars : Nat) :
    ∀ (fuel start : Nat),
      chunkLoop text maxChars fuel start
        = ((sliceLoop text maxChars fuel start).map pyStrip).filter (· ≠ []) := by
  intro fuel
  induction fuel with
  | zero => intro start; simp [chunkLoop, sliceLoop]
  | succ fuel ih =>
    intro start
    rw [chunkLoop, sliceLoop]
    by_cases hs : start < text.length
    · rw [if_pos hs, if_pos hs, List.map_cons, List.filter_cons]
      by_cases hc : pyStrip ((text.drop start).take (chunkEnd text maxChars start - start)) = []
      · simp [hc, ih]
      · simp [hc, ih]
    · simp [if_neg hs]

theorem pyStrip_length_le (s : List Char) : (pyStrip s).length ≤ s.length := by
  unfold pyStrip
  have h1 : (s.dropWhile isPySpace).length ≤ s.length :=
    (List.dropWhile_sublist isPySpace).length_le
  have h2 := (List.dropWhile_sublist (l := (s.dropWhile isPySpace).reverse) isPySpace).length_le
  simp only [List.length_reverse] at *
  omega

theorem chunkLoop_chunk_length_le (text : List Char) (maxChars : Nat) :
    ∀ (fuel start : Nat), ∀ c ∈ chunkLoop text maxChars fuel start,
      c.length ≤ maxChars := by
  intro fuel
  induction fuel with
  | zero => intro start c hc; simp [chunkLoop] at hc
  | succ fuel ih =>
    intro start c hc
    rw [chunkLoop] at hc
    by_cases hs : start < text.length
    · rw [if_pos hs] at hc
      by_cases hstrip : pyStrip ((text.drop start).take (chunkEnd text maxChars start - start)) = []
      · rw [if_pos hstrip] at hc
        exact ih _ c hc
      · rw [if_neg hstrip] at hc
        rcases List.mem_cons.mp hc with hceq | hmem
        · subst hceq
          have h1 := pyStrip_length_le ((text.drop start).take (chunkEnd text maxChars start - start))
          have h2 : ((text.drop start).take (chunkEnd text maxChars start - start)).length
              ≤ chunkEnd text maxChars start - start := by
            simp [List.length_take]
          have h3 := chunkEnd_le text maxChars start
          omega
        · exact ih _ c hmem
    · rw [if_neg hs] at hc
      simp at hc

/-- C3, counterexample.  With a provider budget of 2 tokens (safe character
budget `M = safe_tokens 2 * 4 = 4`) and the 11-character text
`"a b c d e f"`, the chunker returns `["a b", "c d", "e f"]`: each slice is
`strip`ped, so the concatenation of the chunks is `"a bc de f"`, not the
original text. -/
theorem c3_counterexample :
    "a b c d e f".toList.length > safe_tokens 2 * 4
      ∧ (chunk_text "a b c d e f".toList (safe_tokens 2)).flatten
          ≠ "a b c d e f".toList := by
  decide

/-- C3, amended.  The chunker cuts the text into consecutive raw slices whose
concatenation is exactly the original text, and returns each slice with its
leading/trailing whitespace stripped (empty results dropped), so the
concatenation of the returned chunks is the original text minus whitespace at
the cut points; no returned chunk exceeds the safe character budget
`M = max_tokens * 4`, and a text of length at most `M` is returned as the
single original text unchanged. -/
theorem c3_chunking_properties (text : List Char) (max_tokens : Nat)
    (h : 0 < max_tokens) :
    (chunk_slices text max_tokens).flatten = text
      ∧ (max_tokens * 4 < text.length →
          chunk_text text max_tokens
            = ((chunk_slices text max_tokens).map pyStrip).filter (· ≠ []))
      ∧ (∀ c ∈ chunk_text text max_tokens, c.length ≤ max_tokens * 4)
      ∧ (text.length ≤ max_tokens * 4 → chunk_text text max_tokens = [text]) := by
  have hm : 1 ≤ max_tokens * 4 := by omega
  refine ⟨?_, ?_, ?_, ?_⟩
  · unfold chunk_slices
    by_cases hlen : text.length ≤ max_tokens * 4
    · simp [hlen]
    · rw [if_neg hlen]
      simpa using sliceLoop_flatten text (max_tokens * 4) hm (text.length + 1) 0 (by omega)
  · intro hlen
    unfold chunk_text chunk_slices
    rw [if_neg (by omega), if_neg (by omega)]
    exact chunkLoop_eq_slices text (max_tokens * 4) (text.length + 1) 0
  · intro c hc
    unfold chunk_text at hc
    by_cases hlen : text.length ≤ max_tokens * 4
    · rw [if_pos hlen] at hc
      simp at hc
      subst hc
      omega
    · rw [if_neg hlen] at hc
      exact chunkLoop_chunk_length_le text (max_tokens * 4) (text.length + 1) 0 c hc
  · intro hlen
    unfold chunk_text
    rw [if_pos hlen]

/-- C3, witness: the amended theorem applied to the counterexample text at
provider budget 2 (safe budget 1 token = 4 characters). -/
theorem c3_chunking_properties_witness :
    (chunk_slices "a b c d e f".toList 1).flatten = "a b c d e f".toList
      ∧ chunk_text "a b c d e f".toList 1 = ["a b".toList, "c d".toList, "e f".toList] := by
  refine ⟨(c3_chunking_properties "a b c d e f".toList 1 (by decide)).1, ?_⟩
  decide

theorem generate_embedding_single_none (m : Nat) (text : List Char)
    (p : EmbeddingProvider) (hp : ∀ t, p.single t = none) :
    generate_embedding p m text = [] := by
  unfold generate_embedding
  by_cases h : (chunk_text text (safe_tokens m)).length = 1
  · simp [h, hp]
  · have : (chunk_text text (safe_tokens m)).filterMap p.single = [] := by
      simp [hp]
    simp [h, this]

/-- C4, counterexample.  With the default model `text-embedding-3-small`
(token limit 8191, safe character budget `26208`), a 27000-character text
requires chunking under the criterion `_chunk_text` uses, yet
`generate_embeddings_batch` still issues the single batched provider call,
because its own guard is the hardcoded `len(text) > 28000`: with a provider
whose batched call returns `[[1]]` and whose single-text call always fails,
the batch result is `[[1]]` whereas per-text processing would give `[[]]`. -/
theorem c4_counterexample :
    requires_chunking (token_limit_for "text-embedding-3-small")
        (List.replicate 27000 'a') = true
      ∧ generate_embeddings_batch
          ⟨fun _ => none, fun _ => some [[1]]⟩
          (token_limit_for "text-embedding-3-small")
          [List.replicate 27000 'a'] = [[1]]
      ∧ [List.replicate 27000 'a'].map
          (generate_embedding ⟨fun _ => none, fun _ => some [[1]]⟩
            (token_limit_for "text-embedding-3-small")) ≠ [[1]] := by
  have hlimit : token_limit_for "text-embedding-3-small" = 8191 := by decide
  have hlen : (List.replicate 27000 'a').length = 27000 := List.length_replicate 27000 'a'
  refine ⟨?_, ?_, ?_⟩
  · unfold requires_chunking
    rw [hlimit, hlen]
    decide
  · have hcond : ([List.replicate 27000 'a'].any (fun text => text.length > 28000))
        = false := by
      rw [List.any_cons, List.any_nil, hlen]
      decide
    unfold generate_embeddings_batch
    rw [hcond]
    rfl
  · have hemb := generate_embedding_single_none
      (token_limit_for "text-embedding-3-small") (List.replicate 27000 'a')
      ⟨fun _ => none, fun _ => some [[1]]⟩ (fun _ => rfl)
    rw [List.map_cons, List.map_nil, hemb]
    decide

/-- C4, amended.  `generate_embeddings_batch` uses the single batched provider
call if and only if no text in the list is longer than the hardcoded 28000
characters (a fixed `~7k token` threshold, not the model-specific safe budget
that `_chunk_text` uses); whenever any text exceeds 28000 characters, every
text in the batch is processed individually via `generate_embedding`. -/
theorem c4_batch_threshold (p : EmbeddingProvider) (m : Nat)
    (texts : List (List Char)) :
    (texts.any (fun text => text.length > 28000) = false →
        generate_embeddings_batch p m texts
          = (p.batch texts).getD (texts.map (generate_embedding p m)))
      ∧ (texts.any (fun text => text.length > 28000) = true →
          generate_embeddings_batch p m texts
            = texts.map (generate_embedding p m)) := by
  constructor
  · intro h
    unfold generate_embeddings_batch
    rw [if_neg (by simp [h])]
    cases p.batch texts <;> rfl
  · intro h
    unfold generate_embeddings_batch
    rw [if_pos h]

/-- C4, witness: the amended theorem applied to a two-element batch where one
text exceeds 28000 characters, forcing per-text processing. -/
theorem c4_batch_threshold_witness :
    generate_embeddings_batch ⟨fun _ => none, fun _ => some [[7]]⟩ 7000
        [['a'], List.replicate 28001 'b']
      = [[], []] := by
  have h := (c4_batch_threshold ⟨fun _ => none, fun _ => some [[7]]⟩ 7000
      [['a'], List.replicate 28001 'b']).2
  have hcond : ([['a'], List.replicate 28001 'b'].any (fun text => text.length > 28000))
      = true := by
    rw [List.any_cons, List.any_cons, List.any_nil, List.length_replicate]
    decide
  rw [h hcond]
  have hemb1 := generate_embedding_single_none 7000 ['a']
    ⟨fun _ => none, fun _ => some [[7]]⟩ (fun _ => rfl)
  have hemb2 := generate_embedding_single_none 7000 (List.replicate 28001 'b')
    ⟨fun _ => none, fun _ => some [[7]]⟩ (fun _ => rfl)
  rw [List.map_cons, List.map_cons, List.map_nil, hemb1, hemb2]

/-- The dimension-wise arithmetic mean of a list of vectors of width `dim`
(the spec's "average the embeddings" operation). -/
def vecMean (dim : Nat) (vs : List (List ℚ)) : List ℚ :=
  (List.range dim).map (fun k => (vs.map (fun v => v.getD k 0)).sum / (vs.length : ℚ))

theorem pyAverage_eq_vecMean (e0 : List ℚ) (rest : List (List ℚ)) (d : Nat)
    (hdim : ∀ e ∈ e0 :: rest, e.length = d) :
    pyAverage (e0 :: rest) = vecMean d (e0 :: rest) := by
  have he0 : e0.length = d := hdim e0 (List.mem_cons_self e0 rest)
  have hall : ((e0 :: rest).all fun e => decide (e0.length ≤ e.length)) = true := by
    rw [List.all_eq_true]
    intro e he
    rw [hdim e he, he0]
    simp
  simp only [pyAverage, vecMean]
  rw [hall]
  rw [if_pos rfl, he0]

/-- C5.  For every text that `_chunk_text` splits into more than one chunk
(under the service's safe budget) and every provider whose successful chunk
embeddings share a common width `d` (the spec's fixed dimensionality),
`generate_embedding` returns the dimension-wise arithmetic mean of the
embeddings of exactly the chunks whose provider call succeeded — failed
chunks are skipped — and returns the empty vector, with no exception
escaping, when zero chunks succeed. -/
theorem c5_generate_embedding_mean (p : EmbeddingProvider) (m : Nat)
    (text : List Char) (d : Nat)
    (hmulti : 1 < (chunk_text text (safe_tokens m)).length)
    (hdim : ∀ e ∈ (chunk_text text (safe_tokens m)).filterMap p.single, e.length = d) :
    generate_embedding p m text
      = if (chunk_text text (safe_tokens m)).filterMap p.single = [] then []
        else vecMean d ((chunk_text text (safe_tokens m)).filterMap p.single) := by
  unfold generate_embedding
  rw [if_neg (by omega)]
  by_cases hempty : (chunk_text text (safe_tokens m)).filterMap p.single = []
  · rw [if_pos hempty, if_pos hempty]
  · rw [if_neg hempty, if_neg hempty]
    obtain ⟨e0, rest, hs⟩ := List.exists_cons_of_ne_nil hempty
    rw [hs]
    exact pyAverage_eq_vecMean e0 rest d (hs ▸ hdim)

/-- C5, witness: an 11-character text chunked into three pieces under a
2-token budget, with the middle chunk's provider call failing; the result is
the mean of the two surviving embeddings. -/
theorem c5_generate_embedding_mean_witness :
    generate_embedding
        ⟨fun t => if t = "a b".toList then some [1, 3]
                  else if t = "e f".toList then some [3, 5] else none,
         fun _ => none⟩ 2 "a b c d e f".toList = [2, 4] := by
  have h := c5_generate_embedding_mean
    ⟨fun t => if t = "a b".toList then some [1, 3]
              else if t = "e f".toList then some [3, 5] else none,
     fun _ => none⟩ 2 "a b c d e f".toList 2 (by decide) (by decide)
  rw [h]
  have hchunks : chunk_text "a b c d e f".toList (safe_tokens 2)
      = ["a b".toList, "c d".toList, "e f".toList] := by decide
  rw [hchunks]
  have hfm : List.filterMap
      (fun t => if t = "a b".toList then some ([1, 3] : List ℚ)
                else if t = "e f".toList then some [3, 5] else none)
      ["a b".toList, "c d".toList, "e f".toList] = [[1, 3], [3, 5]] := by decide
  rw [hfm, if_neg (by decide)]
  norm_num [vecMean, List.range_succ, List.getD]

theorem sumSq_nonneg (v : List ℚ) : 0 ≤ sumSq v := by
  unfold sumSq
  apply List.sum_nonneg
  intro x hx
  simp only [List.mem_map] at hx
  obtain ⟨a, _, rfl⟩ := hx
  exact mul_self_nonneg a

theorem sqrt_sumSq_eq_zero_iff (v : List ℚ) :
    Real.sqrt ((sumSq v : ℚ) : ℝ) = 0 ↔ sumSq v = 0 := by
  rw [Real.sqrt_eq_zero (by exact_mod_cast sumSq_nonneg v)]
  exact Rat.cast_eq_zero

theorem dotZip_cons (a b : ℚ) (l m : List ℚ) :
    dotZip (a :: l) (b :: m) = a * b + dotZip l m := by
  simp [dotZip]

theorem dotZip_self (v : List ℚ) : dotZip v v = sumSq v := by
  induction v with
  | nil => rfl
  | cons a l ih => rw [dotZip_cons, ih]; simp [sumSq]

theorem dotZip_comm (v : List ℚ) : ∀ w, dotZip v w = dotZip w v := by
  induction v with
  | nil => intro w; cases w <;> rfl
  | cons a l ih =>
    intro w
    cases w with
    | nil => rfl
    | cons b m => rw [dotZip_cons, dotZip_cons, mul_comm, ih m]

/-- C6, counterexample.  The `EmbeddingService` copy of the cosine-similarity
helper has no dimension guard: on the mismatched vectors `[1]` and `[1, 1]`
it returns `1 / √2`, not `0`, because `zip` silently truncates the dot
product while the magnitudes range over the full vectors. -/
theorem c6_counterexample : cosine_similarity_es [1] [1, 1] ≠ 0 := by
  have h1 : sumSq [(1 : ℚ)] = 1 := by norm_num [sumSq]
  have h2 : sumSq [(1 : ℚ), 1] = 2 := by norm_num [sumSq]
  have hd : dotZip [(1 : ℚ)] [1, 1] = 1 := by norm_num [dotZip]
  have hs1 : Real.sqrt ((1 : ℚ) : ℝ) = 1 := by
    rw [show ((1 : ℚ) : ℝ) = 1 by norm_num, Real.sqrt_one]
  have hs2 : Real.sqrt ((2 : ℚ) : ℝ) ≠ 0 := by
    rw [Real.sqrt_ne_zero']
    norm_num
  unfold cosine_similarity_es
  rw [h1, h2, hd, if_neg (by push_neg; exact ⟨by rw [hs1]; norm_num, hs2⟩), hs1]
  rw [show ((1 : ℚ) : ℝ) = 1 by norm_num, one_mul]
  exact div_ne_zero one_ne_zero hs2

/-- C6, amended.  The `GraphDatabaseService` cosine similarity satisfies the
claim in full: it equals `dot(a,b) / (|a|·|b|)` for equal-dimension vectors of
nonzero magnitude, is `0` whenever either magnitude is zero or the dimensions
mismatch (no exception in either degenerate case), is symmetric, and has
self-similarity `1` on nonzero vectors.  The `EmbeddingService` copy
satisfies the same properties **except** the dimension-mismatch clause (it
has no length guard; see the counterexample): its dot product silently ranges
over the zipped common prefix. -/
theorem c6_cosine_similarity_properties :
    (∀ v w : List ℚ, v.length = w.length → sumSq v ≠ 0 → sumSq w ≠ 0 →
        cosine_similarity_gdb v w
          = ((dotZip v w : ℚ) : ℝ)
            / (Real.sqrt ((sumSq v : ℚ) : ℝ) * Real.sqrt ((sumSq w : ℚ) : ℝ)))
      ∧ (∀ v w : List ℚ, sumSq v = 0 ∨ sumSq w = 0 ∨ v.length ≠ w.length →
          cosine_similarity_gdb v w = 0)
      ∧ (∀ v w : List ℚ, cosine_similarity_gdb v w = cosine_similarity_gdb w v)
      ∧ (∀ v : List ℚ, sumSq v ≠ 0 → cosine_similarity_gdb v v = 1)
      ∧ (∀ v w : List ℚ, sumSq v ≠ 0 → sumSq w ≠ 0 →
          cosine_similarity_es v w
            = ((dotZip v w : ℚ) : ℝ)
              / (Real.sqrt ((sumSq v : ℚ) : ℝ) * Real.sqrt ((sumSq w : ℚ) : ℝ)))
      ∧ (∀ v w : List ℚ, sumSq v = 0 ∨ sumSq w = 0 → cosine_similarity_es v w = 0)
      ∧ (∀ v w : List ℚ, cosine_similarity_es v w = cosine_similarity_es w v)
      ∧ (∀ v : List ℚ, sumSq v ≠ 0 → cosine_similarity_es v v = 1) := by
  have hempty : ∀ v : List ℚ, sumSq v ≠ 0 → v ≠ [] := by
    rintro v hv rfl
    exact hv rfl
  refine ⟨?_, ?_, ?_, ?_, ?_, ?_, ?_, ?_⟩
  · intro v w hlen hv hw
    unfold cosine_similarity_gdb
    rw [if_neg (by simp [hempty v hv, hempty w hw, hlen])]
    rw [if_neg (by simp only [sqrt_sumSq_eq_zero_iff]; tauto)]
  · intro v w h
    unfold cosine_similarity_gdb
    by_cases h1 : v = [] ∨ w = [] ∨ v.length ≠ w.length
    · rw [if_pos h1]
    · rw [if_neg h1]
      have hz : sumSq v = 0 ∨ sumSq w = 0 := by
        rcases h with h | h | h
        · exact Or.inl h
        · exact Or.inr h
        · exact absurd h (by tauto)
      rw [if_pos (by simp only [sqrt_sumSq_eq_zero_iff]; exact hz)]
  · intro v w
    unfold cosine_similarity_gdb
    refine if_congr ?_ rfl (if_congr or_comm rfl ?_)
    · constructor
      · rintro (h | h | h)
        · exact Or.inr (Or.inl h)
        · exact Or.inl h
        · exact Or.inr (Or.inr (Ne.symm h))
      · rintro (h | h | h)
        · exact Or.inr (Or.inl h)
        · exact Or.inl h
        · exact Or.inr (Or.inr (Ne.symm h))
    · rw [dotZip_comm v w, mul_comm]
  · intro v h
    unfold cosine_similarity_gdb
    rw [if_neg (by simp [hempty v h])]
    rw [if_neg (by simp only [sqrt_sumSq_eq_zero_iff]; tauto)]
    rw [dotZip_self, Real.mul_self_sqrt (by exact_mod_cast sumSq_nonneg v)]
    exact div_self (by exact_mod_cast h)
  · intro v w hv hw
    unfold cosine_similarity_es
    rw [if_neg (by simp only [sqrt_sumSq_eq_zero_iff]; tauto)]
  · intro v w h
    unfold cosine_similarity_es
    rw [if_pos (by simp only [sqrt_sumSq_eq_zero_iff]; exact h)]
  · intro v w
    unfold cosine_similarity_es
    refine if_congr or_comm rfl ?_
    rw [dotZip_comm v w, mul_comm]
  · intro v h
    unfold cosine_similarity_es
    rw [if_neg (by simp only [sqrt_sumSq_eq_zero_iff]; tauto)]
    rw [dotZip_self, Real.mul_self_sqrt (by exact_mod_cast sumSq_nonneg v)]
    exact div_self (by exact_mod_cast h)

/-- C6, witness: self-similarity of `[1]` is `1`, and the graph-service
version returns `0` on the mismatched pair `([1], [1, 1])`. -/
theorem c6_cosine_similarity_properties_witness :
    cosine_similarity_gdb [1] [1] = 1 ∧ cosine_similarity_gdb [1] [1, 1] = 0 := by
  constructor
  · exact c6_cosine_similarity_properties.2.2.2.1 [1] (by norm_num [sumSq])
  · exact c6_cosine_similarity_properties.2.1 [1] [1, 1] (Or.inr (Or.inr (by norm_num)))

theorem uniqueAdditional_sublist (sigs : List (List Char)) (cs : List GraphTriplet) :
    List.Sublist (uniqueAdditional sigs cs) cs := by
  induction cs generalizing sigs with
  | nil => simp [uniqueAdditional]
  | cons c rest ih =>
    rw [uniqueAdditional]
    by_cases h : signature c ∈ sigs
    · rw [if_pos h]
      exact (ih sigs).cons c
    · rw [if_neg h]
      exact (ih _).cons₂ c

theorem uniqueAdditional_sig_not_mem (sigs : List (List Char)) (cs : List GraphTriplet) :
    ∀ t ∈ uniqueAdditional sigs cs, signature t ∉ sigs := by
  induction cs generalizing sigs with
  | nil => simp [uniqueAdditional]
  | cons c rest ih =>
    intro t ht
    rw [uniqueAdditional] at ht
    by_cases h : signature c ∈ sigs
    · rw [if_pos h] at ht
      exact ih sigs t ht
    · rw [if_neg h] at ht
      rcases List.mem_cons.mp ht with rfl | hmem
      · exact h
      · intro hc
        exact ih (signature c :: sigs) t hmem (List.mem_cons_of_mem _ hc)

theorem uniqueAdditional_sigs_nodup (sigs : List (List Char)) (cs : List GraphTriplet) :
    ((uniqueAdditional sigs cs).map signature).Nodup := by
  induction cs generalizing sigs with
  | nil => simp [uniqueAdditional]
  | cons c rest ih =>
    rw [uniqueAdditional]
    by_cases h : signature c ∈ sigs
    · rw [if_pos h]
      exact ih sigs
    · rw [if_neg h, List.map_cons, List.nodup_cons]
      constructor
      · intro hc
        obtain ⟨t, ht, hsig⟩ := List.mem_map.mp hc
        exact uniqueAdditional_sig_not_mem _ _ t ht (hsig ▸ List.mem_cons_self _ _)
      · exact ih _

theorem uniqueAdditional_complete (sigs : List (List Char)) (cs : List GraphTriplet) :
    ∀ c ∈ cs, signature c ∉ sigs →
      signature c ∈ (uniqueAdditional sigs cs).map signature := by
  induction cs generalizing sigs with
  | nil => simp
  | cons c2 rest ih =>
    intro c hc hnot
    rw [uniqueAdditional]
    rcases List.mem_cons.mp hc with rfl | hmem
    · rw [if_neg hnot, List.map_cons]
      exact List.mem_cons_self _ _
    · by_cases h : signature c2 ∈ sigs
      · rw [if_pos h]
        exact ih sigs c hmem hnot
      · rw [if_neg h, List.map_cons]
        by_cases heq : signature c = signature c2
        · exact heq ▸ List.mem_cons_self _ _
        · exact List.mem_cons_of_mem _
            (ih (signature c2 :: sigs) c hmem (by simp [hnot, heq]))

theorem uniqueAdditional_eq_nil (sigs : List (List Char)) (cs : List GraphTriplet)
    (h : ∀ c ∈ cs, signature c ∈ sigs) : uniqueAdditional sigs cs = [] := by
  induction cs with
  | nil => rfl
  | cons c rest ih =>
    rw [uniqueAdditional, if_pos (h c (List.mem_cons_self _ _))]
    exact ih (fun c2 hc2 => h c2 (List.mem_cons_of_mem _ hc2))

/-- The spec scenario's triplet `("A", "WORKED_AT", "B")`. -/
def worked_at_AB : GraphTriplet :=
  ⟨"A".toList, "WORKED_AT".toList, "B".toList, [], [], [], [], []⟩

/-- C7.  Merging additional extracted triplets into the reviewed set appends
a candidate exactly when its `subject|predicate|object` signature is fresh:
the merged list is the old list followed by the appended candidates; the
appended candidates are a sublist of the candidate list (original relative
order); no two appended triplets share a signature and none shares a
signature with a pre-existing triplet; every candidate with a fresh signature
gets its signature into the appended set; re-running the merge with the same
candidates appends nothing (idempotence); and merging
`[("A","WORKED_AT","B"), ("A","WORKED_AT","B")]` into the empty set yields
exactly one triplet. -/
theorem c7_review_merge_dedup (existing candidates : List GraphTriplet) :
    (review_merge existing candidates
        = existing ++ uniqueAdditional (existing.map signature) candidates)
      ∧ List.Sublist (uniqueAdditional (existing.map signature) candidates) candidates
      ∧ ((uniqueAdditional (existing.map signature) candidates).map signature).Nodup
      ∧ (∀ t ∈ uniqueAdditional (existing.map signature) candidates,
          signature t ∉ existing.map signature)
      ∧ (∀ c ∈ candidates, signature c ∉ existing.map signature →
          signature c ∈ (uniqueAdditional (existing.map signature) candidates).map signature)
      ∧ review_merge (review_merge existing candidates) candidates
          = review_merge existing candidates
      ∧ review_merge [] [worked_at_AB, worked_at_AB] = [worked_at_AB] := by
  refine ⟨rfl, uniqueAdditional_sublist _ _, uniqueAdditional_sigs_nodup _ _,
    uniqueAdditional_sig_not_mem _ _, uniqueAdditional_complete _ _, ?_, by decide⟩
  have hnil : uniqueAdditional ((review_merge existing candidates).map signature)
      candidates = [] := by
    apply uniqueAdditional_eq_nil
    intro c hc
    rw [review_merge, List.map_append]
    by_cases h : signature c ∈ existing.map signature
    · exact List.mem_append_left _ h
    · exact List.mem_append_right _ (uniqueAdditional_complete _ _ c hc h)
  rw [review_merge, hnil, List.append_nil]

/-- C7, witness: in the spec scenario the first duplicate candidate's
signature does land in the appended set. -/
theorem c7_review_merge_dedup_witness :
    signature worked_at_AB
      ∈ (uniqueAdditional (([] : List GraphTriplet).map signature)
          [worked_at_AB, worked_at_AB]).map signature := by
  exact (c7_review_merge_dedup [] [worked_at_AB, worked_at_AB]).2.2.2.2.1
    worked_at_AB (by decide) (by decide)

/-- C8.  When the approve action processes a non-empty
`additional_extraction_requests` queue with the resume text and the extractor
available, the queue is empty afterwards — whether the extraction call
succeeds with new triplets, succeeds with none, or raises. -/
theorem c8_requery_clears_queue (outcome : ExtractionOutcome) (st : ReviewState)
    (hreq : st.additional_extraction_requests ≠ []) :
    ((reviewStep true true st (.approve outcome)).1).additional_extraction_requests
      = [] := by
  show ((approveStep true true outcome st).1).additional_extraction_requests = []
  unfold approveStep
  rw [if_pos ⟨hreq, rfl, rfl⟩]
  cases outcome with
  | success ts =>
    dsimp only
    by_cases h : ts = []
    · rw [if_neg (by simp [h])]
    · rw [if_pos h]
  | failure => rfl

/-- C8, witness: a failing requery on a one-request queue still clears it. -/
theorem c8_requery_clears_queue_witness :
    ((reviewStep true true ⟨[], ["certifications".toList]⟩
        (.approve .failure)).1).additional_extraction_requests = [] :=
  c8_requery_clears_queue .failure ⟨[], ["certifications".toList]⟩ (by decide)

/-- C10.  The review loop never returns approval while
`additional_extraction_requests` is non-empty: every step that returns
`True` leaves an empty queue; when the resume text or the extractor is
missing and requests are pending, the approve action neither processes nor
clears the requests and leaves the state unchanged; and in that situation no
action whatsoever can approve or empty the queue, so the session can
terminate only by cancellation. -/
theorem c10_no_approval_with_pending_requests :
    (∀ (hR hE : Bool) (st : ReviewState) (a : ReviewAction),
        (reviewStep hR hE st a).2 = some true →
        ((reviewStep hR hE st a).1).additional_extraction_requests = [])
      ∧ (∀ (hR hE : Bool) (st : ReviewState) (outcome : ExtractionOutcome),
          (hR = false ∨ hE = false) → st.additional_extraction_requests ≠ [] →
          reviewStep hR hE st (.approve outcome) = (st, none))
      ∧ (∀ (hR hE : Bool) (st : ReviewState) (a : ReviewAction),
          (hR = false ∨ hE = false) → st.additional_extraction_requests ≠ [] →
          ((reviewStep hR hE st a).1).additional_extraction_requests ≠ []
            ∧ (reviewStep hR hE st a).2 ≠ some true) := by
  have hmissing : ∀ (hR hE : Bool) (st : ReviewState) (outcome : ExtractionOutcome),
      (hR = false ∨ hE = false) → st.additional_extraction_requests ≠ [] →
      reviewStep hR hE st (.approve outcome) = (st, none) := by
    intro hR hE st outcome hmiss hreq
    show approveStep hR hE outcome st = (st, none)
    unfold approveStep
    rw [if_neg (by rintro ⟨h1, h2, h3⟩; rcases hmiss with h | h <;> simp_all)]
    rw [if_neg hreq]
  refine ⟨?_, hmissing, ?_⟩
  · intro hR hE st a h
    cases a with
    | approve outcome =>
      replace h : (approveStep hR hE outcome st).2 = some true := h
      show ((approveStep hR hE outcome st).1).additional_extraction_requests = []
      unfold approveStep at h ⊢
      by_cases hcond : st.additional_extraction_requests ≠ [] ∧ hR = true ∧ hE = true
      · rw [if_pos hcond] at h ⊢
        cases outcome with
        | success ts =>
          dsimp only at h ⊢
          by_cases hts : ts = []
          · rw [if_neg (by simp [hts])]
          · rw [if_pos hts] at h
            simp at h
        | failure => rfl
      · rw [if_neg hcond] at h ⊢
        by_cases hempty : st.additional_extraction_requests = []
        · rw [if_pos hempty]
          exact hempty
        · rw [if_neg hempty] at h
          simp at h
    | addRequest info =>
      by_cases hinfo : pyStrip info ≠ [] <;> simp [reviewStep, hinfo] at h
    | removeAction remove_input => simp [reviewStep] at h
    | viewDetails => simp [reviewStep] at h
    | cancel confirmed =>
      by_cases hc : confirmed <;> simp [reviewStep, hc] at h
  · intro hR hE st a hmiss hreq
    cases a with
    | approve outcome =>
      rw [hmissing hR hE st outcome hmiss hreq]
      exact ⟨hreq, by simp⟩
    | addRequest info =>
      by_cases hinfo : pyStrip info ≠ [] <;>
        simp_all [reviewStep]
    | removeAction remove_input => simp [reviewStep, hreq]
    | viewDetails => simp [reviewStep, hreq]
    | cancel confirmed =>
      by_cases hc : confirmed <;> simp [reviewStep, hc, hreq]

/-- C10, witness: with the resume text missing and one pending request, a
successful-looking approve action changes nothing and does not approve. -/
theorem c10_no_approval_with_pending_requests_witness :
    reviewStep false true ⟨[], ["publications".toList]⟩
        (.approve (.success [worked_at_AB]))
      = (⟨[], ["publications".toList]⟩, none) := by
  exact c10_no_approval_with_pending_requests.2.1 false true
    ⟨[], ["publications".toList]⟩ (.success [worked_at_AB]) (Or.inl rfl) (by decide)

/-- The position-indexed filter used to specify removal: keep the elements of
the list whose 0-based position (counted from `k`) is not in `D`. -/
def keepIdxFrom {α : Type} (D : List Nat) : Nat → List α → List α
  | _, [] => []
  | k, a :: l => if k ∈ D then keepIdxFrom D (k + 1) l else a :: keepIdxFrom D (k + 1) l

theorem keepIdxFrom_cons {α : Type} (D : List Nat) (k : Nat) (a : α) (l : List α) :
    keepIdxFrom D k (a :: l)
      = if k ∈ D then keepIdxFrom D (k + 1) l else a :: keepIdxFrom D (k + 1) l := rfl

theorem keepIdxFrom_all_lt {α : Type} (D : List Nat) :
    ∀ (l : List α) (k : Nat), (∀ j ∈ D, j < k) → keepIdxFrom D k l = l := by
  intro l
  induction l with
  | nil => intro k _; rfl
  | cons a l ih =>
    intro k h
    rw [keepIdxFrom_cons, if_neg (fun hk => absurd (h k hk) (lt_irrefl k))]
    rw [ih (k + 1) (fun j hj => Nat.lt_succ_of_lt (h j hj))]

theorem keepIdxFrom_congr {α : Type} (D D2 : List Nat) (h : ∀ j, j ∈ D ↔ j ∈ D2) :
    ∀ (l : List α) (k : Nat), keepIdxFrom D k l = keepIdxFrom D2 k l := by
  intro l
  induction l with
  | nil => intro k; rfl
  | cons a l ih =>
    intro k
    rw [keepIdxFrom_cons, keepIdxFrom_cons]
    by_cases hk : k ∈ D
    · rw [if_pos hk, if_pos ((h k).mp hk), ih]
    · rw [if_neg hk, if_neg (fun hk2 => hk ((h k).mpr hk2)), ih]

theorem keepIdxFrom_sublist {α : Type} (D : List Nat) :
    ∀ (l : List α) (k : Nat), List.Sublist (keepIdxFrom D k l) l := by
  intro l
  induction l with
  | nil => intro k; exact List.Sublist.refl []
  | cons a l ih =>
    intro k
    rw [keepIdxFrom_cons]
    by_cases hk : k ∈ D
    · rw [if_pos hk]
      exact (ih (k + 1)).cons a
    · rw [if_neg hk]
      exact (ih (k + 1)).cons₂ a

theorem keepIdxFrom_cons_erase {α : Type} (i : Nat) (D : List Nat)
    (hD : ∀ j ∈ D, j < i) :
    ∀ (l : List α) (k : Nat), k ≤ i →
      keepIdxFrom (i :: D) k l = keepIdxFrom D k (l.eraseIdx (i - k)) := by
  intro l
  induction l with
  | nil => intro k _; rfl
  | cons a l ih =>
    intro k hk
    by_cases hki : k = i
    · subst hki
      rw [show k - k = 0 by omega, List.eraseIdx_cons_zero]
      rw [keepIdxFrom_cons, if_pos (List.mem_cons_self _ _)]
      rw [keepIdxFrom_all_lt (k :: D) l (k + 1)
        (fun j hj => by rcases List.mem_cons.mp hj with rfl | hj
                        · omega
                        · exact Nat.lt_succ_of_lt (hD j hj))]
      rw [keepIdxFrom_all_lt D l k (fun j hj => hD j hj)]
    · have hlt : k < i := by omega
      rw [show i - k = (i - (k + 1)) + 1 by omega, List.eraseIdx_cons_succ]
      by_cases hd : k ∈ D
      · rw [keepIdxFrom_cons, if_pos (List.mem_cons_of_mem i hd)]
        rw [keepIdxFrom_cons, if_pos hd]
        exact ih (k + 1) (by omega)
      · rw [keepIdxFrom_cons, if_neg (by simp [hki, hd])]
        rw [keepIdxFrom_cons, if_neg hd]
        rw [ih (k + 1) (by omega)]

theorem foldl_eraseIdx_eq_keepIdxFrom {α : Type} :
    ∀ (D : List Nat) (l : List α), List.Pairwise (· > ·) D →
      (∀ i ∈ D, i < l.length) →
      D.foldl List.eraseIdx l = keepIdxFrom D 0 l := by
  intro D
  induction D with
  | nil =>
    intro l _ _
    rw [List.foldl_nil, keepIdxFrom_all_lt [] l 0 (by simp)]
  | cons i D ih =>
    intro l hpw hrange
    have hgt : ∀ j ∈ D, i > j := (List.pairwise_cons.mp hpw).1
    have hpw2 : List.Pairwise (· > ·) D := (List.pairwise_cons.mp hpw).2
    have hi : i < l.length := hrange i (List.mem_cons_self _ _)
    have hlen : (l.eraseIdx i).length = l.length - 1 := List.length_eraseIdx_of_lt hi
    rw [List.foldl_cons]
    rw [ih (l.eraseIdx i) hpw2 (fun j hj => by have := hgt j hj; omega)]
    have hce := keepIdxFrom_cons_erase i D (fun j hj => hgt j hj) l 0 (Nat.zero_le i)
    rw [Nat.sub_zero] at hce
    exact hce.symm

/-- C9.  For every triplet list and every duplicate-free list of parsed
removal indices (a *set* of indices, as the claim puts it), the remove
handler — which keeps the in-range ones, sorts them descending and `pop`s
each — removes exactly the indexed triplets: the result keeps precisely the
elements whose 0-based position is not among the in-range indices
(out-of-range indices are ignored, not errors), and the survivors keep their
original relative order (the result is a sublist of the input). -/
theorem c9_remove_in_range_exact (triplets : List GraphTriplet) (indices : List Int)
    (hnodup : indices.Nodup) :
    removeTriplets triplets indices
        = keepIdxFrom
            ((indices.filter (fun i => 0 ≤ i ∧ i < (triplets.length : Int))).map Int.toNat)
            0 triplets
      ∧ List.Sublist (removeTriplets triplets indices) triplets := by
  have hfilter_mem : ∀ i ∈ indices.filter (fun i => 0 ≤ i ∧ i < (triplets.length : Int)),
      0 ≤ i ∧ i < (triplets.length : Int) := by
    intro i hi
    have h := (List.mem_filter.mp hi).2
    simpa using h
  set D := (indices.filter (fun i => 0 ≤ i ∧ i < (triplets.length : Int))).map Int.toNat
    with hDdef
  have hDnodup : D.Nodup := by
    rw [hDdef]
    refine List.Nodup.map_on ?_ (hnodup.filter _)
    intro x hx y hy hxy
    have hx2 := hfilter_mem x hx
    have hy2 := hfilter_mem y hy
    omega
  have hDrange : ∀ j ∈ D, j < triplets.length := by
    rw [hDdef]
    intro j hj
    obtain ⟨i, hi, rfl⟩ := List.mem_map.mp hj
    have h := hfilter_mem i hi
    omega
  have hperm : (List.insertionSort (· ≥ ·) D).Perm D := List.perm_insertionSort _ D
  have hsorted : List.Sorted (· ≥ ·) (List.insertionSort (· ≥ ·) D) :=
    List.sorted_insertionSort _ D
  have hsnodup : (List.insertionSort (· ≥ ·) D).Nodup := hperm.nodup_iff.mpr hDnodup
  have hpair : List.Pairwise (· > ·) (List.insertionSort (· ≥ ·) D) :=
    (hsorted.and hsnodup).imp (fun {a b} h => lt_of_le_of_ne h.1 (Ne.symm h.2))
  have hsrange : ∀ j ∈ List.insertionSort (· ≥ ·) D, j < triplets.length :=
    fun j hj => hDrange j (hperm.mem_iff.mp hj)
  have heq : removeTriplets triplets indices = keepIdxFrom D 0 triplets := by
    show (List.insertionSort (· ≥ ·) D).foldl List.eraseIdx triplets
      = keepIdxFrom D 0 triplets
    rw [foldl_eraseIdx_eq_keepIdxFrom (List.insertionSort (· ≥ ·) D) triplets hpair hsrange]
    exact keepIdxFrom_congr _ _ (fun j => hperm.mem_iff) triplets 0
  refine ⟨heq, ?_⟩
  rw [heq]
  exact keepIdxFrom_sublist D triplets 0

/-- C9, witness: the spec scenario — removing 1-based index `2` (the prompt
input `"2"`) from a 3-element list leaves the original first and third
triplets, in order. -/
theorem c9_remove_in_range_exact_witness :
    handle_remove_triplets
        [⟨"A".toList, "P".toList, "B".toList, [], [], [], [], []⟩,
         ⟨"C".toList, "Q".toList, "D".toList, [], [], [], [], []⟩,
         ⟨"E".toList, "R".toList, "F".toList, [], [], [], [], []⟩]
        "2".toList
      = [⟨"A".toList, "P".toList, "B".toList, [], [], [], [], []⟩,
         ⟨"E".toList, "R".toList, "F".toList, [], [], [], [], []⟩] := by
  have h := (c9_remove_in_range_exact
    [⟨"A".toList, "P".toList, "B".toList, [], [], [], [], []⟩,
     ⟨"C".toList, "Q".toList, "D".toList, [], [], [], [], []⟩,
     ⟨"E".toList, "R".toList, "F".toList, [], [], [], [], []⟩]
    (parse_remove_indices "2".toList) (by decide)).1
  show removeTriplets _ (parse_remove_indices "2".toList) = _
  rw [h]
  decide

end ResumeMind
